import Mathlib

/-!
Verification of the Rona clearance scraper's Extraction and Reconciliation
Engine.  The definitions below are a shallow embedding of the functions in
`scripts/scrape_rona_store.mjs` (price parsing, discount computation, the DOM
tile pipeline) and of the network-capture reconciler (`collectCandidateArrays`,
`pickFirstValue`, `normalizeCapturedProducts`, `extractProductsFromCaptured`)
together with the pure control-flow core of `scrapeStore`.

Modelling conventions:
 - JS numbers are modelled as rationals; every number arising here is finite.
 - JS values (parsed JSON) are modelled by the inductive `JsVal`.
 - Code that can throw (the WHATWG `URL` constructor) is modelled in
   `Except Unit`; `.error ()` models a propagating exception.
 - Recursions over `JsVal` take an explicit fuel argument so that they are
   structural; fuel is initialised from `sizeOf`, which is large enough that
   it is never exhausted on the actual argument (adequacy is proved where a
   claim depends on it).
-/

namespace Rona

/-- JS values as produced by `JSON.parse`: null, booleans, (finite) numbers,
strings, arrays and objects.  Objects are association lists in insertion
order; `JSON.parse` output has distinct keys. -/
inductive JsVal where
  | null : JsVal
  | bool (b : Bool) : JsVal
  | num (q : ℚ) : JsVal
  | str (s : String) : JsVal
  | arr (elems : List JsVal) : JsVal
  | obj (fields : List (String × JsVal)) : JsVal

/-- JS truthiness for `JsVal`: null, false, 0 and the empty string are falsy;
arrays and objects are always truthy. -/
def jsTruthy : JsVal → Bool
  | .null => false
  | .bool b => b
  | .num q => decide (q ≠ 0)
  | .str s => decide (s ≠ "")
  | .arr _ => true
  | .obj _ => true

/-- The check `item && typeof item === 'object'`: arrays and objects qualify,
null is excluded by the truthiness conjunct. -/
def isObjLike : JsVal → Bool
  | .arr _ => true
  | .obj _ => true
  | _ => false

/-- First binding of a key in an association list (object property lookup). -/
def assocLookup : List (String × JsVal) → String → Option JsVal
  | [], _ => none
  | (k, v) :: rest, key => if k = key then some v else assocLookup rest key

/-- Models the JS `part in current` test plus `current[part]` access used by
`pickFirstValue` and by `entry.data[key]`: object keys by name, array access
by canonical numeric index (and the `length` property); every other base
value has no own properties that the alias lists ever name. -/
def getPathPart : JsVal → String → Option JsVal
  | .obj fields, part => assocLookup fields part
  | .arr xs, part =>
    if part = "length" then some (.num xs.length)
    else
      match part.toNat? with
      | some i => if Nat.repr i = part ∧ i < xs.length then xs.get? i else none
      | none => none
  | _, _ => none

/-! ### String helpers (List Char based, so that kernel reduction is cheap) -/

/-- Boolean list-prefix test. -/
def strBeginsL : List Char → List Char → Bool
  | [], _ => true
  | _ :: _, [] => false
  | a :: as, b :: bs => a = b && strBeginsL as bs

/-- Boolean string-prefix test. -/
def strBegins (p s : String) : Bool := strBeginsL p.data s.data

/-- Index of the first occurrence of a character (length of the list when the
character is absent). -/
def firstIdx : List Char → Char → ℕ
  | [], _ => 0
  | c :: rest, a => if c = a then 0 else 1 + firstIdx rest a

/-- Index of the last occurrence of a character; meaningful only when the
character occurs (`lastIndexOf` is only compared when both separators do). -/
def lastIdx (cs : List Char) (a : Char) : ℕ :=
  cs.length - 1 - firstIdx cs.reverse a

/-- Replace the first occurrence of a character, as `String.replace` with a
single-character pattern does (`'...'.replace(',', '.')`). -/
def replaceFirst : List Char → Char → Char → List Char
  | [], _, _ => []
  | c :: rest, a, b => if c = a then b :: rest else c :: replaceFirst rest a b

/-- `key.split('.')` on the dotted alias paths. -/
def splitPartsFuel : ℕ → List Char → List String
  | 0, cs => [String.mk cs]
  | fuel + 1, cs =>
    let part := cs.takeWhile (fun c => c != '.')
    match cs.dropWhile (fun c => c != '.') with
    | [] => [String.mk part]
    | _ :: rest => String.mk part :: splitPartsFuel fuel rest

/-- `key.split('.')`. -/
def splitParts (key : String) : List String :=
  splitPartsFuel key.data.length key.data

/-! ### Price and discount normalizer (`parsePrice`, `extractPricesFromText`,
`computeDiscountPct` from `scripts/scrape_rona_store.mjs`) -/

/-- The character class kept by `raw.replace(/[^0-9.,]/g, '')` and matched by
the tail of the price-token regex `[\d.,]`. -/
def priceChar (c : Char) : Bool := c.isDigit || c == '.' || c == ','

/-- Numeric value of a digit string. -/
def digitsToNat (ds : List Char) : ℕ :=
  ds.foldl (fun acc c => 10 * acc + (c.toNat - 48)) 0

/-- Models `Number.parseFloat` restricted to strings over digits, `.` and `,`
(the only inputs it receives here): the longest numeric prefix
`digits* ('.' digits*)?` containing at least one digit; `none` models NaN. -/
def jsParseFloat (cs : List Char) : Option ℚ :=
  let intPart := cs.takeWhile Char.isDigit
  let rest := cs.dropWhile Char.isDigit
  match rest with
  | '.' :: rest2 =>
    let fracPart := rest2.takeWhile Char.isDigit
    if intPart.length = 0 ∧ fracPart.length = 0 then none
    else some ((digitsToNat intPart : ℚ) + (digitsToNat fracPart : ℚ) / (10 : ℚ) ^ fracPart.length)
  | _ => if intPart.length = 0 then none else some ((digitsToNat intPart : ℚ))

/-- `parsePrice` from the source: strip everything but digits, `.` and `,`;
when both separators occur, the kind occurring last survives as the decimal
point (all dots stripped and the first comma turned into a dot otherwise);
a lone comma kind turns its first comma into a dot; then `parseFloat`. -/
def parsePrice (raw : String) : Option ℚ :=
  if raw = "" then none
  else
    let cleaned := raw.data.filter priceChar
    if cleaned = [] then none
    else
      let cleaned2 :=
        if cleaned.contains ',' ∧ cleaned.contains '.' then
          if lastIdx cleaned ',' < lastIdx cleaned '.' then
            cleaned.filter (fun c => c != ',')
          else
            replaceFirst (cleaned.filter (fun c => c != '.')) ',' '.'
        else if cleaned.contains ',' then
          replaceFirst cleaned ',' '.'
        else cleaned
      jsParseFloat cleaned2

/-- Scanner for `text.match(/\d+[\d.,]*/g)`: maximal runs over `[0-9.,]`
starting at a digit.  Fuel is the length of the text, which the scan never
exhausts since every step consumes at least one character. -/
def tokenizeFuel : ℕ → List Char → List (List Char)
  | 0, _ => []
  | _ + 1, [] => []
  | fuel + 1, c :: rest =>
    if c.isDigit then
      (c :: rest.takeWhile priceChar) :: tokenizeFuel fuel (rest.dropWhile priceChar)
    else
      tokenizeFuel fuel rest

/-- `extractPricesFromText` from the source: parse every numeric substring
independently, keeping only finite results (dropping the nulls). -/
def extractPricesFromText (text : String) : List ℚ :=
  if text = "" then []
  else (tokenizeFuel text.data.length text.data).filterMap (fun tok => parsePrice (String.mk tok))

/-- `Math.round` on a finite number: half-up, i.e. the floor of `q + 1/2`. -/
def jsRound (q : ℚ) : ℤ := ⌊q + 1 / 2⌋

/-- `computeDiscountPct` from the source.  The first guard is JS truthiness
(`!regularPrice || !salePrice`), which also rejects 0. -/
def computeDiscountPct : Option ℚ → Option ℚ → Option ℤ
  | some r, some s =>
    if r = 0 ∨ s = 0 then none
    else if r ≤ 0 ∨ s ≤ 0 then none
    else if r ≤ s then none
    else some (jsRound ((r - s) / r * 100))
  | _, _ => none

/-! ### String conversion and URL resolution (JS builtins used by the code) -/

/-- Decimal rendering of a nonnegative rational whose denominator divides a
power of ten; `fuel` bounds the fraction digits.  Every number the scraper
builds from JSON or price text has such a form.  Used only to model the JS
`String(number)` conversion. -/
def ratFracDigits : ℕ → ℚ → List Char
  | 0, _ => []
  | fuel + 1, q =>
    if q = 0 then []
    else
      let d : ℤ := ⌊q * 10⌋
      Char.ofNat (48 + d.toNat) :: ratFracDigits fuel (q * 10 - (d : ℚ))

/-- Models `String(n)` for a finite JS number (exact for the terminating
decimals that actually arise). -/
def ratToJsString (q : ℚ) : String :=
  let sign := if q < 0 then "-" else ""
  let a := |q|
  let ip : ℕ := (⌊a⌋).toNat
  let frac := a - (ip : ℚ)
  if frac = 0 then sign ++ Nat.repr ip
  else sign ++ Nat.repr ip ++ "." ++ String.mk (ratFracDigits 30 frac)

mutual

/-- Models the JS `String(value)` conversion: strings unchanged, numbers and
booleans rendered, arrays joined by commas with null elements blank, plain
objects rendered as the usual object tag. -/
def jsToString : JsVal → String
  | .null => "null"
  | .bool b => if b then "true" else "false"
  | .num q => ratToJsString q
  | .str s => s
  | .arr xs => jsArrJoin xs
  | .obj _ => "[object Object]"

/-- `Array.prototype.join(',')`: null elements render blank. -/
def jsArrJoin : List JsVal → String
  | [] => ""
  | [.null] => ""
  | [v] => jsToString v
  | .null :: v :: rest => "," ++ jsArrJoin (v :: rest)
  | u :: v :: rest => jsToString u ++ "," ++ jsArrJoin (v :: rest)

end

/-- Characters ending the host portion of a URL. -/
def urlHostChar (c : Char) : Bool := !(c == '/' || c == '?' || c == '#')

/-- Origin (scheme and host) of a base URL string; the scraper only ever
passes the storefront base. -/
def urlOrigin (base : String) : String :=
  if strBegins "https://" base then
    String.mk ("https://".data ++ (base.data.drop 8).takeWhile urlHostChar)
  else if strBegins "http://" base then
    String.mk ("http://".data ++ (base.data.drop 7).takeWhile urlHostChar)
  else base

/-- Serialization of an input that already carries a special scheme of the
given length: reject an empty host, append the root path when the host ends
the string. -/
def serializeAbs (schemeLen : ℕ) (input : String) : Option String :=
  if ((input.data.drop schemeLen).takeWhile urlHostChar).length = 0 then none
  else if ((input.data.drop schemeLen).takeWhile urlHostChar).length = (input.data.drop schemeLen).length then
    some (String.mk (input.data ++ ['/']))
  else some input

/-- Models `new URL(input, base).toString()`: `none` models the constructor
throwing, which for the inputs reachable here happens exactly when a special
scheme comes with an empty host (for example the string consisting of a
scheme followed by two slashes and nothing else).  Relative inputs resolve
against the origin of the base, whose serialized path here is `/`. -/
def jsNewURL (input : String) (base : String) : Option String :=
  let origin := urlOrigin base
  if strBegins "https://" input then serializeAbs 8 input
  else if strBegins "http://" input then serializeAbs 7 input
  else if strBegins "//" input then serializeAbs 8 ("https:" ++ input)
  else if strBegins "/" input then some (origin ++ input)
  else if input.data.length = 0 then some (origin ++ "/")
  else some (origin ++ "/" ++ input)

/-- A URL string in absolute (serialized) form. -/
def isAbsoluteUrl (s : String) : Bool := strBegins "https://" s || strBegins "http://" s

/-! ### The canonical output record and the DOM tile pipeline -/

/-- The canonical product record pushed by both extraction paths. -/
structure Product where
  name : String
  url : String
  image : String
  sku : String
  regularPrice : Option ℚ
  salePrice : Option ℚ
  discountPct : Option ℤ
deriving DecidableEq

/-- The per-tile data the in-page evaluation returns: all free text. -/
structure RawTile where
  name : String
  url : String
  image : String
  sku : String
  regularPriceText : String
  salePriceText : String

/-- The discount filter `discountPct !== null && discountPct >= 50`. -/
def keepFilter (p : Product) : Bool :=
  match p.discountPct with
  | some d => decide (50 ≤ d)
  | none => false

/-- JS falsiness of a nullable number: absent or zero. -/
def numFalsy : Option ℚ → Bool
  | none => true
  | some v => decide (v = 0)

/-- Step 2 of the per-tile price policy: when the sale price is falsy and
the regular text yielded at least two numbers, the largest becomes the
regular price and the smallest the sale price. -/
def priceStep2 (pc : List ℚ) (r0 s0 : Option ℚ) : Option ℚ × Option ℚ :=
  if numFalsy s0 ∧ 2 ≤ pc.length then
    (some (pc.foldl max pc.headI), some (pc.foldl min pc.headI))
  else (r0, s0)

/-- Step 3 of the per-tile price policy: when the regular price is falsy and
sale candidates exist, the regular price is copied from the first sale
candidate. -/
def priceStep3 (sc : List ℚ) (rs : Option ℚ × Option ℚ) : Option ℚ × Option ℚ :=
  if numFalsy rs.1 ∧ 1 ≤ sc.length then (sc.head?, rs.2) else rs

/-- The per-tile price resolution policy from `extractProducts`: first number
of each text, then the two fallback steps in order. -/
def resolveTilePrices (regularText saleText : String) : Option ℚ × Option ℚ :=
  priceStep3 (extractPricesFromText saleText)
    (priceStep2 (extractPricesFromText regularText)
      (extractPricesFromText regularText).head?
      (extractPricesFromText saleText).head?)

/-- Running state of the tile loop in `extractProducts`. -/
structure LoopState where
  normalized : List Product
  seen : List String
  parsedCount : ℕ
  keptCount : ℕ

/-- The per-tile condition counted by `parsedCount`
(`item.name && Number.isFinite(salePrice)`): truthy name and a finite sale
price after price resolution. -/
def tileParsed (t : RawTile) : Bool :=
  decide (t.name ≠ "") && (resolveTilePrices t.regularPriceText t.salePriceText).2.isSome

/-- `item.url ? new URL(item.url, base).toString() : ''`, with the throwing
constructor modelled in `Except`. -/
def resolveTileUrl (rawUrl : String) : Except Unit String :=
  if rawUrl = "" then .ok ""
  else
    match jsNewURL rawUrl "https://www.rona.ca" with
    | some u => .ok u
    | none => .error ()

/-- One iteration of the tile loop of `extractProducts`: price resolution,
parsed counting, discount, URL resolution, the name/url guard, dedup by seen
URL, push and kept counting. -/
def processTile (st : LoopState) (item : RawTile) : Except Unit LoopState :=
  let prices := resolveTilePrices item.regularPriceText item.salePriceText
  let parsed := if tileParsed item then st.parsedCount + 1 else st.parsedCount
  let discountPct := computeDiscountPct prices.1 prices.2
  match resolveTileUrl item.url with
  | .error e => .error e
  | .ok url =>
    if item.name = "" ∨ url = "" then .ok { st with parsedCount := parsed }
    else if url ∈ st.seen then .ok { st with parsedCount := parsed }
    else
      let p : Product :=
        { name := item.name, url := url, image := item.image, sku := item.sku,
          regularPrice := prices.1, salePrice := prices.2, discountPct := discountPct }
      .ok { normalized := st.normalized ++ [p],
            seen := url :: st.seen,
            parsedCount := parsed,
            keptCount := if keepFilter p then st.keptCount + 1 else st.keptCount }

/-- The tile loop. -/
def runTiles : LoopState → List RawTile → Except Unit LoopState
  | st, [] => .ok st
  | st, t :: rest =>
    match processTile st t with
    | .error e => .error e
    | .ok st2 => runTiles st2 rest

/-- The contract `extractProducts` hands back. -/
structure ExtractionResult where
  products : List Product
  parsedCount : ℕ
  keptCount : ℕ

/-- `extractProducts` from the source (the pure part, starting from the
per-tile text data): loop over the tiles, then keep only products passing
the inclusive 50 percent discount filter. -/
def extractProducts (tiles : List RawTile) : Except Unit ExtractionResult :=
  match runTiles ⟨[], [], 0, 0⟩ tiles with
  | .error e => .error e
  | .ok st => .ok ⟨st.normalized.filter keepFilter, st.parsedCount, st.keptCount⟩

/-! ### Network-capture reconciler -/

/-- Path resolution inside `pickFirstValue`: each part requires the current
value to be a truthy object (objects and arrays are always truthy) carrying
the part as a property. -/
def resolvePath : JsVal → List String → Option JsVal
  | current, [] => some current
  | current, part :: rest =>
    if isObjLike current then
      match getPathPart current part with
      | some nxt => resolvePath nxt rest
      | none => none
    else none

/-- `pickFirstValue` from the source: first alias path that resolves to a
non-null value wins. -/
def pickFirstValue (item : JsVal) : List String → Option JsVal
  | [] => none
  | key :: keys =>
    match resolvePath item (splitParts key) with
    | some .null => pickFirstValue item keys
    | some v => some v
    | none => pickFirstValue item keys

/-- `extractNumber` from the source: finite numbers pass through, strings go
through `parsePrice`, anything else is null. -/
def extractNumber : Option JsVal → Option ℚ
  | some (.num q) => some q
  | some (.str s) => parsePrice s
  | _ => none

def nameKeys : List String :=
  ["name", "productName", "title", "shortDescription", "description", "label"]

def urlKeys : List String :=
  ["url", "pdpUrl", "productUrl", "seoUrl", "link", "href", "attributes.webPath"]

def imageKeys : List String :=
  ["image", "imageUrl", "thumbnail", "thumbnailUrl", "primaryImage", "images.0.url",
   "images.0", "image.url"]

def skuKeys : List String := ["sku", "productId", "id", "code"]

def regularPriceKeys : List String :=
  ["regularPrice", "listPrice", "originalPrice", "wasPrice", "basePrice", "price.regular",
   "price.original", "price.list", "price.value"]

def salePriceKeys : List String :=
  ["salePrice", "offerPrice", "currentPrice", "specialPrice", "price.sale", "price.current",
   "price.now"]

def fallbackPriceKeys : List String := ["price", "prices", "priceText"]

/-- Running state of the item loop in `normalizeCapturedProducts`. -/
structure NState where
  out : List Product
  seen : List String

/-- `urlValue ? new URL(String(urlValue), baseUrl).toString() : ''` on the
resolved url alias, with the throwing constructor modelled in `Except`. -/
def resolveCapturedUrl (baseUrl : String) : Option JsVal → Except Unit String
  | some v =>
    if jsTruthy v then
      match jsNewURL (jsToString v) baseUrl with
      | some u => .ok u
      | none => .error ()
    else .ok ""
  | none => .ok ""

/-- One iteration of the item loop of `normalizeCapturedProducts`: alias
lookups per field, numeric extraction, discount, URL resolution (throwing on
a rejected URL string), the truthy name and url guard, dedup, push. -/
def normalizeStep (baseUrl : String) (st : NState) (item : JsVal) : Except Unit NState :=
  if isObjLike item = false then .ok st
  else
    let name := pickFirstValue item nameKeys
    let imageValue := pickFirstValue item imageKeys
    let sku := pickFirstValue item skuKeys
    let regularPriceRaw := pickFirstValue item regularPriceKeys
    let salePriceRaw := pickFirstValue item salePriceKeys
    let regularPrice :=
      match extractNumber regularPriceRaw with
      | some q => some q
      | none => extractNumber (pickFirstValue item fallbackPriceKeys)
    let salePrice := extractNumber salePriceRaw
    let discountPct := computeDiscountPct regularPrice salePrice
    match resolveCapturedUrl baseUrl (pickFirstValue item urlKeys) with
    | .error e => .error e
    | .ok resolvedUrl =>
      let nameTruthy : Bool := match name with | some v => jsTruthy v | none => false
      if nameTruthy = false ∨ resolvedUrl = "" then .ok st
      else if resolvedUrl ∈ st.seen then .ok st
      else
        let p : Product :=
          { name := match name with | some v => jsToString v | none => "",
            url := resolvedUrl,
            image := match imageValue with | some v => if jsTruthy v then jsToString v else "" | none => "",
            sku := match sku with | some v => if jsTruthy v then jsToString v else "" | none => "",
            regularPrice := regularPrice,
            salePrice := salePrice,
            discountPct := discountPct }
        .ok { out := st.out ++ [p], seen := resolvedUrl :: st.seen }

/-- The item loop. -/
def runItems (baseUrl : String) : NState → List JsVal → Except Unit NState
  | st, [] => .ok st
  | st, item :: rest =>
    match normalizeStep baseUrl st item with
    | .error e => .error e
    | .ok st2 => runItems baseUrl st2 rest

/-- `normalizeCapturedProducts` from the source (before the discount filter
applied by its caller). -/
def normalizeCapturedProducts (items : List JsVal) (baseUrl : String) : Except Unit (List Product) :=
  match runItems baseUrl ⟨[], []⟩ items with
  | .error e => .error e
  | .ok st => .ok st.out

mutual

/-- The candidate walk `visit` of `collectCandidateArrays`: non-empty arrays
of object-shaped entries are registered and never recursed into, plain
objects are walked key by key with a dotted path.  Primitives contribute
nothing (falsy values return early, truthy primitives are not objects). -/
def visitCollect : JsVal → String → List (String × List JsVal)
  | .arr xs, pathKey => if 0 < xs.length ∧ xs.all isObjLike then [(pathKey, xs)] else []
  | .obj fields, pathKey => visitFields fields pathKey
  | _, _ => []

/-- Walk of the entries of one object, in insertion order. -/
def visitFields : List (String × JsVal) → String → List (String × List JsVal)
  | [], _ => []
  | (k, nested) :: rest, pathKey =>
    visitCollect nested (if pathKey = "" then k else pathKey ++ "." ++ k) ++
      visitFields rest pathKey

end

/-- `collectCandidateArrays` from the source. -/
def collectCandidateArrays (data : JsVal) : List (String × List JsVal) :=
  visitCollect data ""

/-- One captured network response as the reconciler sees it: its URL and its
parsed JSON body (`JsVal.null` when no JSON was parsed, matching the falsy
guard on `entry.data`). -/
structure CapturedEntry where
  url : String
  data : JsVal

/-- The running best match of `extractProductsFromCaptured`. -/
structure BestMatch where
  url : String
  path : String
  items : List JsVal

/-- The well-known container keys tried on every captured body. -/
def priorityKeys : List String :=
  ["CatalogEntryView", "catalogEntryView", "products", "items", "results", "searchResults",
   "entries"]

/-- `if (!bestMatch || items.length > bestMatch.items.length) bestMatch = cand`. -/
def updateBest (best : Option BestMatch) (cand : BestMatch) : Option BestMatch :=
  match best with
  | none => some cand
  | some b => if b.items.length < cand.items.length then some cand else some b

/-- The priority-key loop over one entry: any array value under a well-known
key (empty or not, object-shaped or not) is offered to the best match. -/
def scanKeys (entry : CapturedEntry) : Option BestMatch → List String → Option BestMatch
  | best, [] => best
  | best, key :: keys =>
    let best2 :=
      match getPathPart entry.data key with
      | some (.arr xs) => updateBest best ⟨entry.url, key, xs⟩
      | _ => best
    scanKeys entry best2 keys

/-- The generic-walk loop over one entry. -/
def scanCandidates (url : String) : Option BestMatch → List (String × List JsVal) → Option BestMatch
  | best, [] => best
  | best, c :: rest => scanCandidates url (updateBest best ⟨url, c.1, c.2⟩) rest

/-- One iteration of the entry loop of `extractProductsFromCaptured`: skip
falsy bodies, try the well-known keys, and fall back to the generic walk only
when no best match exists yet after them. -/
def scanEntry (best : Option BestMatch) (entry : CapturedEntry) : Option BestMatch :=
  if !(jsTruthy entry.data) then best
  else
    match scanKeys entry best priorityKeys with
    | some b => some b
    | none => scanCandidates entry.url none (collectCandidateArrays entry.data)

/-- The entry loop computing the best match over the whole capture set. -/
def bestCaptureMatch : Option BestMatch → List CapturedEntry → Option BestMatch
  | best, [] => best
  | best, e :: rest => bestCaptureMatch (scanEntry best e) rest

/-- Result record of `extractProductsFromCaptured`. -/
structure CapturedExtraction where
  products : List Product
  matched : Option BestMatch

/-- `extractProductsFromCaptured` from the source: pick the best match, then
normalize its items and keep only products passing the discount filter. -/
def extractProductsFromCaptured (captured : List CapturedEntry) (baseUrl : String) :
    Except Unit CapturedExtraction :=
  match bestCaptureMatch none captured with
  | none => .ok ⟨[], none⟩
  | some best =>
    match normalizeCapturedProducts best.items baseUrl with
    | .error e => .error e
    | .ok normalized => .ok ⟨normalized.filter keepFilter, some best⟩

/-! ### Source arbitration: the pure control-flow core of `scrapeStore` -/

/-- The pure data flow of `scrapeStore` after page load: count the tiles;
when there are none and responses were captured, try the captured JSON and
adopt its products when non-empty; run DOM extraction whenever the product
list is still empty; exceptions propagate. -/
def scrapeStoreCore (tiles : List RawTile) (captured : List CapturedEntry) :
    Except Unit (List Product) :=
  let jsonProductsE : Except Unit (List Product) :=
    if tiles.length = 0 ∧ 0 < captured.length then
      match extractProductsFromCaptured captured "https://www.rona.ca" with
      | .error e => .error e
      | .ok ext => .ok ext.products
    else .ok []
  match jsonProductsE with
  | .error e => .error e
  | .ok jsonProducts =>
    if jsonProducts.length = 0 then
      match extractProducts tiles with
      | .error e => .error e
      | .ok extracted => .ok extracted.products
    else .ok jsonProducts

/-! ### Instrumentation for the depth claim -/

mutual

/-- Recursion depth of the `visit` closure of `collectCandidateArrays` on a
value: arrays and primitives return without further calls, objects add one
call level per nesting level. -/
def visitDepth : JsVal → ℕ
  | .obj fields => 1 + visitDepthFields fields
  | _ => 1

/-- Maximal recursion depth over the entries of one object. -/
def visitDepthFields : List (String × JsVal) → ℕ
  | [] => 0
  | (_, nested) :: rest => max (visitDepth nested) (visitDepthFields rest)

end

/-- A chain of singleton objects of the given nesting depth. -/
def deepNest : ℕ → JsVal
  | 0 => .obj []
  | n + 1 => .obj [("k", deepNest n)]

/-- A non-empty all-object array buried under the given number of object
levels. -/
def deepArr : ℕ → JsVal
  | 0 => .arr [.obj []]
  | n + 1 => .obj [("k", deepArr n)]

/-! ### Statement-level predicates and concrete test data -/

/-- Element count of the current best match (0 when there is none). -/
def bestLen : Option BestMatch → ℕ
  | none => 0
  | some b => b.items.length

/-- An item whose url alias either does not resolve to a truthy value or
resolves to a string the URL constructor accepts; on such items field
mapping cannot throw. -/
def urlAliasSafe (baseUrl : String) (item : JsVal) : Bool :=
  match pickFirstValue item urlKeys with
  | some v => !(jsTruthy v) || (jsNewURL (jsToString v) baseUrl).isSome
  | none => true

/-- Tile with separate regular and sale texts at exactly 50 percent. -/
def demoTileA : RawTile := ⟨"A", "/a", "", "", "$40", "$20"⟩

/-- Tile at 25 percent, dropped by the filter. -/
def demoTileB : RawTile := ⟨"B", "/b", "", "", "$40", "$30"⟩

/-- Tile with a single combined price text. -/
def demoTileC : RawTile := ⟨"C", "/c", "", "", "$10 $25", ""⟩

/-- First of two tiles sharing one URL. -/
def demoTileDupFirst : RawTile := ⟨"First", "/dup", "", "", "$100", "$50"⟩

/-- Second of two tiles sharing one URL. -/
def demoTileDupSecond : RawTile := ⟨"Second", "/dup", "", "", "$100", "$40"⟩

/-- Tile at exactly 50 percent discount. -/
def demoTileFifty : RawTile := ⟨"Fifty", "/f50", "", "", "$100", "$50"⟩

/-- Tile at 49 percent discount. -/
def demoTileFortyNine : RawTile := ⟨"FortyNine", "/f49", "", "", "$100", "$51"⟩

/-- Product produced by `demoTileA`. -/
def demoProductA : Product :=
  ⟨"A", "https://www.rona.ca/a", "", "", some 40, some 20, some 50⟩

/-- Product produced by `demoTileC`. -/
def demoProductC : Product :=
  ⟨"C", "https://www.rona.ca/c", "", "", some 25, some 10, some 60⟩

/-- Extraction result of the three-tile scenario. -/
def demoExtractionABC : ExtractionResult := ⟨[demoProductA, demoProductC], 3, 2⟩

/-- A well-formed captured catalog item. -/
def demoGoodItem : JsVal :=
  .obj [("name", .str "N"), ("url", .str "/p"), ("regularPrice", .num 100), ("salePrice", .num 50)]

/-- Product produced by `demoGoodItem`. -/
def demoProductN : Product :=
  ⟨"N", "https://www.rona.ca/p", "", "", some 100, some 50, some 50⟩

/-- A captured item whose name alias resolves to a truthy value converting
to the empty string. -/
def demoBadNameItem : JsVal :=
  .obj [("name", .arr []), ("url", .str "/x"), ("regularPrice", .num 100), ("salePrice", .num 50)]

/-- A captured item whose url alias is a string the URL constructor
rejects. -/
def demoBadUrlItem : JsVal := .obj [("name", .str "X"), ("url", .str "http://")]

/-- A captured item with no url alias and an unparseable price. -/
def demoNoUrlItem : JsVal := .obj [("name", .str "X"), ("regularPrice", .str "junk")]

/-- A captured response carrying `demoBadNameItem` under `products`. -/
def demoBadNameCapture : CapturedEntry := ⟨"u", .obj [("products", .arr [demoBadNameItem])]⟩

/-- A captured response carrying `demoGoodItem` under `products`. -/
def demoCapGood : CapturedEntry := ⟨"u", .obj [("products", .arr [demoGoodItem])]⟩

/-- A response with a five-entry all-object array under an unrecognized
nested key. -/
def demoEntryGenericFive : CapturedEntry :=
  ⟨"a", .obj [("weird", .obj [("stuff", .arr [.obj [], .obj [], .obj [], .obj [], .obj []])])]⟩

/-- A response with a three-entry array under the well-known `products`
key. -/
def demoEntryProductsThree : CapturedEntry :=
  ⟨"b", .obj [("products", .arr [.obj [], .obj [], .obj []])]⟩

/-- A response with a five-entry array under the well-known `products`
key. -/
def demoEntryProductsFive : CapturedEntry :=
  ⟨"u1", .obj [("products", .arr [.obj [], .obj [], .obj [], .obj [], .obj []])]⟩

/-- A response with a three-entry all-object array under an unrecognized
nested key. -/
def demoEntryGenericThree : CapturedEntry :=
  ⟨"u2", .obj [("misc", .obj [("deep", .arr [.obj [], .obj [], .obj []])])]⟩

/-! ## Helper lemmas -/

theorem strBeginsL_append (p l m : List Char) (h : strBeginsL p l = true) :
    strBeginsL p (l ++ m) = true := by
  induction p generalizing l with
  | nil => rfl
  | cons a as ih =>
    cases l with
    | nil => simp [strBeginsL] at h
    | cons b bs =>
      simp only [strBeginsL, List.cons_append, Bool.and_eq_true, decide_eq_true_eq] at h ⊢
      exact ⟨h.1, ih bs h.2⟩

theorem strBeginsL_exists {p s : List Char} (h : strBeginsL p s = true) :
    ∃ t, s = p ++ t := by
  induction p generalizing s with
  | nil => exact ⟨s, rfl⟩
  | cons a as ih =>
    cases s with
    | nil => simp [strBeginsL] at h
    | cons b bs =>
      simp only [strBeginsL, Bool.and_eq_true, decide_eq_true_eq] at h
      obtain ⟨t, ht⟩ := ih h.2
      exact ⟨t, by simp [h.1, ht]⟩

theorem strBegins_append (p a b : String) (h : strBegins p a = true) :
    strBegins p (a ++ b) = true := by
  have : (a ++ b).data = a.data ++ b.data := rfl
  unfold strBegins at h ⊢
  rw [this]
  exact strBeginsL_append _ _ _ h

theorem isAbsoluteUrl_append (a b : String) (h : isAbsoluteUrl a = true) :
    isAbsoluteUrl (a ++ b) = true := by
  unfold isAbsoluteUrl at h ⊢
  simp only [Bool.or_eq_true] at h ⊢
  rcases h with h | h
  · exact Or.inl (strBegins_append _ _ _ h)
  · exact Or.inr (strBegins_append _ _ _ h)

theorem urlOrigin_rona : urlOrigin "https://www.rona.ca" = "https://www.rona.ca" := by
  with_unfolding_all rfl

theorem isAbsoluteUrl_rona : isAbsoluteUrl "https://www.rona.ca" = true := by
  with_unfolding_all rfl

theorem strBeginsL_refl (l : List Char) : strBeginsL l l = true := by
  induction l with
  | nil => rfl
  | cons c cs ih => simp [strBeginsL, ih]

theorem serializeAbs_result {n : ℕ} {input u : String} (h : serializeAbs n input = some u) :
    u = String.mk (input.data ++ ['/']) ∨ u = input := by
  unfold serializeAbs at h
  split_ifs at h
  · injection h with h
    exact Or.inl h.symm
  · injection h with h
    exact Or.inr h.symm

theorem isAbsoluteUrl_mk_append {l : List Char} {m : List Char}
    (h : strBeginsL "https://".data l = true ∨ strBeginsL "http://".data l = true) :
    isAbsoluteUrl (String.mk (l ++ m)) = true := by
  unfold isAbsoluteUrl strBegins
  simp only [Bool.or_eq_true]
  rcases h with h | h
  · exact Or.inl (strBeginsL_append _ _ _ h)
  · exact Or.inr (strBeginsL_append _ _ _ h)

/-- Every URL the constructor model accepts is serialized in absolute form
(for the storefront base the scraper passes). -/
theorem jsNewURL_absolute (input u : String)
    (h : jsNewURL input "https://www.rona.ca" = some u) : isAbsoluteUrl u = true := by
  unfold jsNewURL at h
  rw [urlOrigin_rona] at h
  split_ifs at h with c1 c2 c3 c4 c5
  · rcases serializeAbs_result h with rfl | rfl
    · exact isAbsoluteUrl_mk_append (Or.inl c1)
    · unfold isAbsoluteUrl
      simp only [Bool.or_eq_true]
      exact Or.inl c1
  · rcases serializeAbs_result h with rfl | rfl
    · exact isAbsoluteUrl_mk_append (Or.inr c2)
    · unfold isAbsoluteUrl
      simp only [Bool.or_eq_true]
      exact Or.inr c2
  · obtain ⟨t, ht⟩ := strBeginsL_exists c3
    have habs : isAbsoluteUrl ("https:" ++ input) = true := by
      unfold isAbsoluteUrl strBegins
      simp only [Bool.or_eq_true]
      refine Or.inl ?_
      show strBeginsL "https://".data ("https:".data ++ input.data) = true
      rw [ht]
      show strBeginsL "https://".data ("https://".data ++ t) = true
      exact strBeginsL_append _ _ _ (strBeginsL_refl _)
    rcases serializeAbs_result h with rfl | rfl
    · unfold isAbsoluteUrl strBegins at habs ⊢
      simp only [Bool.or_eq_true] at habs ⊢
      rcases habs with hb | hb
      · exact Or.inl (strBeginsL_append _ _ _ hb)
      · exact Or.inr (strBeginsL_append _ _ _ hb)
    · exact habs
  · injection h with h
    subst h
    exact isAbsoluteUrl_append _ _ isAbsoluteUrl_rona
  · injection h with h
    subst h
    exact isAbsoluteUrl_append _ _ isAbsoluteUrl_rona
  · injection h with h
    subst h
    exact isAbsoluteUrl_append _ _ (isAbsoluteUrl_append _ _ isAbsoluteUrl_rona)

theorem isAbsoluteUrl_ne_empty (u : String) (h : isAbsoluteUrl u = true) : u ≠ "" := by
  intro he
  subst he
  exact absurd h (by decide)

theorem filter_priceChar_idem (l : List Char) :
    (l.filter priceChar).filter priceChar = l.filter priceChar := by
  induction l with
  | nil => rfl
  | cons c cs ih =>
    by_cases h : priceChar c = true
    · simp [List.filter_cons, h, ih]
    · simp [List.filter_cons, h, ih]

theorem parsePrice_strip (raw : String) :
    parsePrice raw = parsePrice (String.mk (raw.data.filter priceChar)) := by
  by_cases hf : raw.data.filter priceChar = []
  · have hL : parsePrice raw = none := by
      simp [parsePrice, hf]
    have hR : parsePrice (String.mk (raw.data.filter priceChar)) = none := by
      rw [hf]
      with_unfolding_all rfl
    rw [hL, hR]
  · have hraw : ¬(raw = "") := by
      intro he
      apply hf
      rw [he]
      rfl
    have hmk : ¬(String.mk (raw.data.filter priceChar) = "") := by
      intro he
      apply hf
      exact congrArg String.data he
    unfold parsePrice
    rw [if_neg hraw, if_neg hmk]
    have hdata : (String.mk (raw.data.filter priceChar)).data = raw.data.filter priceChar := rfl
    rw [hdata, filter_priceChar_idem]

theorem priceStep2_split {pc : List ℚ} {r0 s0 : Option ℚ}
    (h1 : numFalsy s0 = true) (h2 : 2 ≤ pc.length) :
    priceStep2 pc r0 s0 = (some (pc.foldl max pc.headI), some (pc.foldl min pc.headI)) := by
  unfold priceStep2
  rw [if_pos ⟨h1, h2⟩]

theorem priceStep2_id {pc : List ℚ} {r0 s0 : Option ℚ}
    (h : ¬(numFalsy s0 = true ∧ 2 ≤ pc.length)) : priceStep2 pc r0 s0 = (r0, s0) := by
  unfold priceStep2
  rw [if_neg h]

theorem priceStep3_copy {sc : List ℚ} {rs : Option ℚ × Option ℚ}
    (h1 : numFalsy rs.1 = true) (h2 : 1 ≤ sc.length) : priceStep3 sc rs = (sc.head?, rs.2) := by
  unfold priceStep3
  rw [if_pos ⟨h1, h2⟩]

theorem priceStep3_id {sc : List ℚ} {rs : Option ℚ × Option ℚ}
    (h : ¬(numFalsy rs.1 = true ∧ 1 ≤ sc.length)) : priceStep3 sc rs = rs := by
  unfold priceStep3
  rw [if_neg h]

theorem keepFilter_iff (p : Product) :
    keepFilter p = true ↔ ∃ d, p.discountPct = some d ∧ 50 ≤ d := by
  cases hd : p.discountPct with
  | none => simp [keepFilter, hd]
  | some d => simp [keepFilter, hd]

theorem nodup_append_single {α : Type} (l : List α) (a : α)
    (h1 : l.Nodup) (h2 : a ∉ l) : (l ++ [a]).Nodup := by
  refine List.Nodup.append h1 (List.nodup_singleton a) ?_
  intro x hx hxa
  rw [List.mem_singleton] at hxa
  subst hxa
  exact h2 hx

theorem resolveTileUrl_ok {s u : String} (h : resolveTileUrl s = .ok u) :
    u = "" ∨ jsNewURL s "https://www.rona.ca" = some u := by
  unfold resolveTileUrl at h
  split_ifs at h with h1
  · injection h with h
    exact Or.inl h.symm
  · cases hj : jsNewURL s "https://www.rona.ca" with
    | none =>
      rw [hj] at h
      simp at h
    | some v =>
      rw [hj] at h
      simp only [] at h
      injection h with h
      exact Or.inr (congrArg some h)

theorem processTile_step (st st2 : LoopState) (t : RawTile)
    (h : processTile st t = .ok st2) :
    st2.parsedCount = st.parsedCount + (if tileParsed t then 1 else 0) ∧
    ((st2.normalized = st.normalized ∧ st2.seen = st.seen ∧ st2.keptCount = st.keptCount) ∨
      (∃ p : Product,
        st2.normalized = st.normalized ++ [p] ∧ st2.seen = p.url :: st.seen ∧
        st2.keptCount = st.keptCount + (if keepFilter p then 1 else 0) ∧
        p.name ≠ "" ∧ p.url ≠ "" ∧ isAbsoluteUrl p.url = true ∧ p.url ∉ st.seen)) := by
  cases hurl : resolveTileUrl t.url with
  | error e =>
    unfold processTile at h
    rw [hurl] at h
    simp at h
  | ok url =>
    unfold processTile at h
    rw [hurl] at h
    simp only [] at h
    by_cases hc1 : t.name = "" ∨ url = ""
    · rw [if_pos hc1] at h
      injection h with h
      subst h
      exact ⟨by dsimp only; split_ifs <;> omega, Or.inl ⟨rfl, rfl, rfl⟩⟩
    · rw [if_neg hc1] at h
      by_cases hc2 : url ∈ st.seen
      · rw [if_pos hc2] at h
        injection h with h
        subst h
        exact ⟨by dsimp only; split_ifs <;> omega, Or.inl ⟨rfl, rfl, rfl⟩⟩
      · rw [if_neg hc2] at h
        injection h with h
        subst h
        push_neg at hc1
        refine ⟨by dsimp only; split_ifs <;> omega,
          Or.inr ⟨_, rfl, rfl, by dsimp only; split_ifs <;> omega, hc1.1, hc1.2, ?_, hc2⟩⟩
        rcases resolveTileUrl_ok hurl with he | hj
        · exact absurd he hc1.2
        · exact jsNewURL_absolute _ _ hj

theorem runTiles_inv :
    ∀ (tiles : List RawTile) (st st2 : LoopState),
      runTiles st tiles = .ok st2 →
      st.keptCount = (st.normalized.filter keepFilter).length →
      (∀ p ∈ st.normalized, p.url ∈ st.seen) →
      (st.normalized.map Product.url).Nodup →
      (∀ p ∈ st.normalized, p.name ≠ "" ∧ p.url ≠ "" ∧ isAbsoluteUrl p.url = true) →
      (st2.keptCount = (st2.normalized.filter keepFilter).length ∧
        (∀ p ∈ st2.normalized, p.url ∈ st2.seen) ∧
        (st2.normalized.map Product.url).Nodup ∧
        (∀ p ∈ st2.normalized, p.name ≠ "" ∧ p.url ≠ "" ∧ isAbsoluteUrl p.url = true) ∧
        st2.parsedCount = st.parsedCount + (tiles.filter tileParsed).length) := by
  intro tiles
  induction tiles with
  | nil =>
    intro st st2 hrun h1 h2 h3 h4
    simp only [runTiles] at hrun
    injection hrun with hrun
    subst hrun
    exact ⟨h1, h2, h3, h4, by simp⟩
  | cons t rest ih =>
    intro st st2 hrun h1 h2 h3 h4
    simp only [runTiles] at hrun
    cases hpt : processTile st t with
    | error e =>
      rw [hpt] at hrun
      simp at hrun
    | ok st1 =>
      rw [hpt] at hrun
      simp only [] at hrun
      obtain ⟨hparsed, hstep⟩ := processTile_step st st1 t hpt
      rcases hstep with ⟨hn, hs, hk⟩ | ⟨p, hn, hs, hk, hp1, hp2, hp3, hp4⟩
      · have hrec := ih st1 st2 hrun (by rw [hk, hn]; exact h1) (by rw [hn, hs]; exact h2)
          (by rw [hn]; exact h3) (by rw [hn]; exact h4)
        refine ⟨hrec.1, hrec.2.1, hrec.2.2.1, hrec.2.2.2.1, ?_⟩
        rw [hrec.2.2.2.2, hparsed, List.filter_cons]
        split_ifs with hc <;> (simp; try omega)
      · have h1' : st1.keptCount = (st1.normalized.filter keepFilter).length := by
          rw [hk, hn, List.filter_append, List.length_append, h1]
          congr 1
          split_ifs with hc <;> simp [List.filter_cons, hc]
        have h2' : ∀ q ∈ st1.normalized, q.url ∈ st1.seen := by
          rw [hn, hs]
          intro q hq
          rcases List.mem_append.mp hq with hq | hq
          · exact List.mem_cons_of_mem _ (h2 q hq)
          · rw [List.mem_singleton] at hq
            subst hq
            exact List.mem_cons_self _ _
        have h3' : (st1.normalized.map Product.url).Nodup := by
          rw [hn, List.map_append]
          refine nodup_append_single _ _ h3 ?_
          intro hmem
          obtain ⟨q, hq, hqurl⟩ := List.mem_map.mp hmem
          exact hp4 (hqurl ▸ h2 q hq)
        have h4' : ∀ q ∈ st1.normalized,
            q.name ≠ "" ∧ q.url ≠ "" ∧ isAbsoluteUrl q.url = true := by
          rw [hn]
          intro q hq
          rcases List.mem_append.mp hq with hq | hq
          · exact h4 q hq
          · rw [List.mem_singleton] at hq
            subst hq
            exact ⟨hp1, hp2, hp3⟩
        have hrec := ih st1 st2 hrun h1' h2' h3' h4'
        refine ⟨hrec.1, hrec.2.1, hrec.2.2.1, hrec.2.2.2.1, ?_⟩
        rw [hrec.2.2.2.2, hparsed, List.filter_cons]
        split_ifs with hc <;> (simp; try omega)

theorem resolveCapturedUrl_ok {base : String} {uv : Option JsVal} {u : String}
    (h : resolveCapturedUrl base uv = .ok u) :
    u = "" ∨ ∃ s, jsNewURL s base = some u := by
  cases uv with
  | none =>
    simp only [resolveCapturedUrl] at h
    injection h with h
    exact Or.inl h.symm
  | some v =>
    simp only [resolveCapturedUrl] at h
    split_ifs at h with ht
    · cases hj : jsNewURL (jsToString v) base with
      | none =>
        rw [hj] at h
        simp at h
      | some w =>
        rw [hj] at h
        simp only [] at h
        injection h with h
        exact Or.inr ⟨jsToString v, by rw [hj, h]⟩
    · injection h with h
      exact Or.inl h.symm

theorem resolveCapturedUrl_error {base : String} {uv : Option JsVal}
    (h : resolveCapturedUrl base uv = .error ()) :
    ∃ v, uv = some v ∧ jsTruthy v = true ∧ jsNewURL (jsToString v) base = none := by
  cases uv with
  | none => simp [resolveCapturedUrl] at h
  | some v =>
    simp only [resolveCapturedUrl] at h
    split_ifs at h with ht
    cases hj : jsNewURL (jsToString v) base with
    | none => exact ⟨v, rfl, ht, hj⟩
    | some w =>
      rw [hj] at h
      simp at h

theorem normalizeStep_step (base : String) (st st2 : NState) (item : JsVal)
    (h : normalizeStep base st item = .ok st2) :
    (st2.out = st.out ∧ st2.seen = st.seen) ∨
    (∃ p : Product, st2.out = st.out ++ [p] ∧ st2.seen = p.url :: st.seen ∧
      p.url ≠ "" ∧ (∃ s, jsNewURL s base = some p.url) ∧
      (∃ v, jsTruthy v = true ∧ p.name = jsToString v) ∧ p.url ∉ st.seen) := by
  by_cases hobj : isObjLike item = false
  · unfold normalizeStep at h
    rw [if_pos hobj] at h
    injection h with h
    subst h
    exact Or.inl ⟨rfl, rfl⟩
  · unfold normalizeStep at h
    rw [if_neg hobj] at h
    simp only [] at h
    cases hre : resolveCapturedUrl base (pickFirstValue item urlKeys) with
    | error e =>
      rw [hre] at h
      simp at h
    | ok u =>
      rw [hre] at h
      simp only [] at h
      cases hname : pickFirstValue item nameKeys with
      | none =>
        rw [hname] at h
        simp only [] at h
        rw [if_pos (Or.inl trivial)] at h
        injection h with h
        subst h
        exact Or.inl ⟨rfl, rfl⟩
      | some v =>
        rw [hname] at h
        simp only [] at h
        by_cases hc1 : jsTruthy v = false ∨ u = ""
        · rw [if_pos hc1] at h
          injection h with h
          subst h
          exact Or.inl ⟨rfl, rfl⟩
        · rw [if_neg hc1] at h
          push_neg at hc1
          have ht : jsTruthy v = true := by
            cases hbv : jsTruthy v
            · exact absurd hbv hc1.1
            · rfl
          by_cases hc2 : u ∈ st.seen
          · rw [if_pos hc2] at h
            injection h with h
            subst h
            exact Or.inl ⟨rfl, rfl⟩
          · rw [if_neg hc2] at h
            injection h with h
            subst h
            refine Or.inr ⟨_, rfl, rfl, hc1.2, ?_, ⟨v, ht, rfl⟩, hc2⟩
            rcases resolveCapturedUrl_ok hre with he | hj
            · exact absurd he hc1.2
            · exact hj

theorem runItems_inv :
    ∀ (base : String) (items : List JsVal) (st st2 : NState),
      runItems base st items = .ok st2 →
      (∀ p ∈ st.out, p.url ∈ st.seen) →
      (st.out.map Product.url).Nodup →
      (∀ p ∈ st.out, p.url ≠ "" ∧ (∃ s, jsNewURL s base = some p.url) ∧
        ∃ v, jsTruthy v = true ∧ p.name = jsToString v) →
      ((∀ p ∈ st2.out, p.url ∈ st2.seen) ∧ (st2.out.map Product.url).Nodup ∧
        (∀ p ∈ st2.out, p.url ≠ "" ∧ (∃ s, jsNewURL s base = some p.url) ∧
          ∃ v, jsTruthy v = true ∧ p.name = jsToString v)) := by
  intro base items
  induction items with
  | nil =>
    intro st st2 hrun h2 h3 h4
    simp only [runItems] at hrun
    injection hrun with hrun
    subst hrun
    exact ⟨h2, h3, h4⟩
  | cons item rest ih =>
    intro st st2 hrun h2 h3 h4
    simp only [runItems] at hrun
    cases hns : normalizeStep base st item with
    | error e =>
      rw [hns] at hrun
      simp at hrun
    | ok st1 =>
      rw [hns] at hrun
      simp only [] at hrun
      rcases normalizeStep_step base st st1 item hns with ⟨hn, hs⟩ |
        ⟨p, hn, hs, hp1, hp2, hp3, hp4⟩
      · exact ih st1 st2 hrun (by rw [hn, hs]; exact h2) (by rw [hn]; exact h3)
          (by rw [hn]; exact h4)
      · have h2' : ∀ q ∈ st1.out, q.url ∈ st1.seen := by
          rw [hn, hs]
          intro q hq
          rcases List.mem_append.mp hq with hq | hq
          · exact List.mem_cons_of_mem _ (h2 q hq)
          · rw [List.mem_singleton] at hq
            subst hq
            exact List.mem_cons_self _ _
        have h3' : (st1.out.map Product.url).Nodup := by
          rw [hn, List.map_append]
          refine nodup_append_single _ _ h3 ?_
          intro hmem
          obtain ⟨q, hq, hqurl⟩ := List.mem_map.mp hmem
          exact hp4 (hqurl ▸ h2 q hq)
        have h4' : ∀ q ∈ st1.out, q.url ≠ "" ∧ (∃ s, jsNewURL s base = some q.url) ∧
            ∃ v, jsTruthy v = true ∧ q.name = jsToString v := by
          rw [hn]
          intro q hq
          rcases List.mem_append.mp hq with hq | hq
          · exact h4 q hq
          · rw [List.mem_singleton] at hq
            subst hq
            exact ⟨hp1, hp2, hp3⟩
        exact ih st1 st2 hrun h2' h3' h4'

/-! ## Claim theorems -/

/-- C1 counterexample: `parsePrice "$1,234"` does not return 1234 (the code
reads the lone comma as a decimal separator and yields 1.234), and an input
where the rightmost separator is one of several commas is not parsed with
that rightmost comma as the decimal point (the first comma is). -/
theorem C1_parse_price_counterexample :
    parsePrice "$1,234" ≠ some 1234 ∧ parsePrice "1.2,3,4" ≠ some (1234 / 10) := by
  constructor
  · have h : parsePrice "$1,234" = some (1234 / 1000) := by with_unfolding_all rfl
    rw [h]
    intro hc
    injection hc with hc
    norm_num at hc
  · have h : parsePrice "1.2,3,4" = some (123 / 10) := by with_unfolding_all rfl
    rw [h]
    intro hc
    injection hc with hc
    norm_num at hc

/-- C1 amended: `parsePrice` strips all characters except digits, `.` and
`,` (last conjunct); when both separators appear and the dot is rightmost
the commas are stripped, when a comma is rightmost the dots are stripped and
the first comma becomes the decimal point; a lone comma kind has its first
comma become the decimal point; empty or digit-free input gives null.  The
round-trips: 19.99, 19.99, 1234.56, 1234.56 — and "$1,234" gives 1.234, not
1234. -/
theorem C1_parse_price_amended :
    parsePrice "19.99" = some (1999 / 100) ∧
    parsePrice "19,99" = some (1999 / 100) ∧
    parsePrice "1,234.56" = some (123456 / 100) ∧
    parsePrice "1.234,56" = some (123456 / 100) ∧
    parsePrice "$1,234" = some (1234 / 1000) ∧
    parsePrice "1.2,3,4" = some (123 / 10) ∧
    parsePrice "" = none ∧
    parsePrice "abc$" = none ∧
    (∀ raw : String, parsePrice raw = parsePrice (String.mk (raw.data.filter priceChar))) := by
  refine ⟨?_, ?_, ?_, ?_, ?_, ?_, ?_, ?_, parsePrice_strip⟩ <;> with_unfolding_all rfl

/-- C1 witness: the amended round-trip evaluated at a concrete input. -/
theorem C1_parse_price_witness : parsePrice "19.99" = some (1999 / 100) :=
  C1_parse_price_amended.1

/-- C5: `computeDiscountPct` is null exactly when a price is absent, a price
is nonpositive, or the sale price is at least the regular price; otherwise
it rounds `100 * (regular - sale) / regular` half-up; every non-null result
lies between 0 and 100; and the five documented evaluations hold. -/
theorem C5_compute_discount :
    (∀ s, computeDiscountPct none s = none) ∧
    (∀ r, computeDiscountPct r none = none) ∧
    (∀ rv sv : ℚ, rv ≤ 0 ∨ sv ≤ 0 ∨ rv ≤ sv → computeDiscountPct (some rv) (some sv) = none) ∧
    (∀ rv sv : ℚ, 0 < sv → sv < rv →
      computeDiscountPct (some rv) (some sv) = some (jsRound (100 * (rv - sv) / rv))) ∧
    (∀ r s : Option ℚ, ∀ d : ℤ, computeDiscountPct r s = some d → 0 ≤ d ∧ d ≤ 100) ∧
    computeDiscountPct (some 100) (some 50) = some 50 ∧
    computeDiscountPct (some 100) (some 60) = some 40 ∧
    computeDiscountPct (some 100) (some 100) = none ∧
    computeDiscountPct (some 100) (some 120) = none ∧
    computeDiscountPct none (some 50) = none := by
  refine ⟨fun s => by cases s <;> rfl, fun r => by cases r <;> rfl, ?_, ?_, ?_, ?_, ?_, ?_, ?_, ?_⟩
  · intro rv sv h
    simp only [computeDiscountPct]
    split_ifs with h1 h2 h3 <;> try rfl
    exfalso
    push_neg at h1 h2 h3
    rcases h with h | h | h
    · linarith [h2.1]
    · linarith [h2.2]
    · linarith
  · intro rv sv hs hlt
    simp only [computeDiscountPct]
    split_ifs with h1 h2 h3
    · exfalso
      rcases h1 with rfl | rfl <;> linarith
    · exfalso
      rcases h2 with h | h <;> linarith
    · exfalso
      linarith
    · have harg : (rv - sv) / rv * 100 = 100 * (rv - sv) / rv := by ring
      rw [harg]
  · intro r s d h
    cases r with
    | none => exact absurd h (by simp [computeDiscountPct])
    | some rv =>
      cases s with
      | none => exact absurd h (by simp [computeDiscountPct])
      | some sv =>
        simp only [computeDiscountPct] at h
        split_ifs at h with h1 h2 h3
        injection h with h
        subst h
        push_neg at h1 h2 h3
        have hrv : 0 < rv := h2.1
        have hsv : 0 < sv := h2.2
        have hlt : sv < rv := h3
        have hx0 : 0 < (rv - sv) / rv * 100 := by
          have hd : 0 < rv - sv := by linarith
          positivity
        have hx100 : (rv - sv) / rv * 100 < 100 := by
          have hdiv : (rv - sv) / rv < 1 := (div_lt_one hrv).mpr (by linarith)
          nlinarith
        constructor
        · unfold jsRound
          apply Int.le_floor.mpr
          push_cast
          linarith
        · unfold jsRound
          have hlt101 : (rv - sv) / rv * 100 + 1 / 2 < ((101 : ℤ) : ℚ) := by
            push_cast
            linarith
          have := Int.floor_lt.mpr hlt101
          omega
  · with_unfolding_all rfl
  · with_unfolding_all rfl
  · with_unfolding_all rfl
  · with_unfolding_all rfl
  · with_unfolding_all rfl

/-- C5 witness: the characterization and the bound instantiated at
regular 100, sale 60. -/
theorem C5_compute_discount_witness :
    computeDiscountPct (some 100) (some 60) = some (jsRound (100 * ((100 : ℚ) - 60) / 100)) ∧
    (0 ≤ (40 : ℤ) ∧ (40 : ℤ) ≤ 100) :=
  ⟨C5_compute_discount.2.2.2.1 100 60 (by norm_num) (by norm_num),
   C5_compute_discount.2.2.2.2.1 (some 100) (some 60) 40 (by with_unfolding_all rfl)⟩

/-- C10: a price of exactly 0 behaves as an absent price — the discount is
null whenever either argument is 0, and a sale price that parsed to 0 counts
as no sale price, so the max/min split of the regular-text candidates is
applied whenever that text yielded at least two numbers. -/
theorem C10_zero_price :
    (∀ s, computeDiscountPct (some 0) s = none) ∧
    (∀ r, computeDiscountPct r (some 0) = none) ∧
    (∀ rt st : String, ∀ rest : List ℚ,
      extractPricesFromText st = 0 :: rest →
      2 ≤ (extractPricesFromText rt).length →
      resolveTilePrices rt st =
        (some ((extractPricesFromText rt).foldl max (extractPricesFromText rt).headI),
         some ((extractPricesFromText rt).foldl min (extractPricesFromText rt).headI))) := by
  refine ⟨?_, ?_, ?_⟩
  · intro s
    cases s with
    | none => rfl
    | some sv => simp [computeDiscountPct]
  · intro r
    cases r with
    | none => rfl
    | some rv => simp [computeDiscountPct]
  · intro rt st rest hst hlen
    unfold resolveTilePrices
    rw [hst]
    rw [priceStep2_split (by simp [numFalsy]) hlen]
    by_cases hmax : (extractPricesFromText rt).foldl max (extractPricesFromText rt).headI = 0
    · rw [priceStep3_copy (by simp [numFalsy, hmax]) (by simp)]
      simp [hmax]
    · rw [priceStep3_id (by simp [numFalsy, hmax])]

/-- C10 witness: zero prices at concrete inputs, and the split applied on a
tile whose sale text parses to 0. -/
theorem C10_zero_price_witness :
    computeDiscountPct (some 0) (some 50) = none ∧
    computeDiscountPct (some 50) (some 0) = none ∧
    resolveTilePrices "$40 $20" "$0.00" = (some 40, some 20) := by
  refine ⟨C10_zero_price.1 (some 50), C10_zero_price.2.1 (some 50), ?_⟩
  have h := C10_zero_price.2.2 "$40 $20" "$0.00" [] (by with_unfolding_all rfl)
    (by with_unfolding_all decide)
  rw [h]
  with_unfolding_all rfl

/-- C6: the ordered per-tile price policy — first number of each text when
the sale head is truthy; max/min split of the regular candidates when the
sale price is falsy and at least two regular numbers exist; regular copied
from the first sale candidate when no regular number exists (making the
downstream discount null since both prices are equal); and the combined
"$10 $25" tile resolves to regular 25, sale 10, discount 60 and is kept. -/
theorem C6_price_resolution :
    (∀ rt st : String, ∀ r0 s0 : ℚ,
      (extractPricesFromText rt).head? = some r0 → r0 ≠ 0 →
      (extractPricesFromText st).head? = some s0 → s0 ≠ 0 →
      resolveTilePrices rt st = (some r0, some s0)) ∧
    (∀ rt st : String,
      ((extractPricesFromText st).head? = some 0 ∨ extractPricesFromText st = []) →
      2 ≤ (extractPricesFromText rt).length →
      0 < (extractPricesFromText rt).foldl max (extractPricesFromText rt).headI →
      resolveTilePrices rt st =
        (some ((extractPricesFromText rt).foldl max (extractPricesFromText rt).headI),
         some ((extractPricesFromText rt).foldl min (extractPricesFromText rt).headI))) ∧
    (∀ rt st : String, ∀ s0 : ℚ, ∀ rest : List ℚ,
      extractPricesFromText rt = [] → extractPricesFromText st = s0 :: rest →
      resolveTilePrices rt st = (some s0, some s0)) ∧
    (∀ x : ℚ, computeDiscountPct (some x) (some x) = none) ∧
    ((extractProducts [demoTileC]).toOption.map
      (fun r => (r.products, r.parsedCount, r.keptCount)) = some ([demoProductC], 1, 1)) := by
  refine ⟨?_, ?_, ?_, ?_, by with_unfolding_all rfl⟩
  · intro rt st r0 s0 hr hr0 hs hs0
    unfold resolveTilePrices
    rw [hr, hs]
    rw [priceStep2_id (by simp [numFalsy, hs0])]
    rw [priceStep3_id (by simp [numFalsy, hr0])]
  · intro rt st hsale hlen hpos
    unfold resolveTilePrices
    have hfalsy : numFalsy (extractPricesFromText st).head? = true := by
      rcases hsale with h | h
      · rw [h]
        simp [numFalsy]
      · rw [h]
        rfl
    rw [priceStep2_split hfalsy hlen]
    rw [priceStep3_id (by simp [numFalsy, hpos.ne'])]
  · intro rt st s0 rest hrt hst
    unfold resolveTilePrices
    rw [hrt, hst]
    rw [priceStep2_id (by simp)]
    rw [priceStep3_copy (by simp [numFalsy]) (by simp)]
    simp
  · intro x
    simp only [computeDiscountPct]
    split_ifs with h1 h2 h3 <;> first | rfl | exact absurd (le_refl x) h3

/-- C6 witness: the three ordered rules instantiated at concrete price
texts. -/
theorem C6_price_resolution_witness :
    resolveTilePrices "$40" "$20" = (some 40, some 20) ∧
    resolveTilePrices "" "$30" = (some 30, some 30) := by
  constructor
  · exact C6_price_resolution.1 "$40" "$20" 40 20 (by with_unfolding_all rfl) (by norm_num)
      (by with_unfolding_all rfl) (by norm_num)
  · exact C6_price_resolution.2.2.1 "" "$30" 30 [] (by with_unfolding_all rfl)
      (by with_unfolding_all rfl)

/-- C8: `parsedCount` counts the raw tiles (before URL validation and dedup)
with a truthy name and a finite resolved sale price, `keptCount` equals the
length of the final filtered product list, and the three-tile scenario
yields exactly the two expected products with parsedCount 3 and
keptCount 2. -/
theorem C8_extraction_counts :
    (∀ (tiles : List RawTile) (res : ExtractionResult), extractProducts tiles = .ok res →
      res.parsedCount = (tiles.filter tileParsed).length ∧
      res.keptCount = res.products.length) ∧
    ((extractProducts [demoTileA, demoTileB, demoTileC]).toOption.map
      (fun r => (r.products, r.parsedCount, r.keptCount)) =
      some ([demoProductA, demoProductC], 3, 2)) := by
  constructor
  · intro tiles res h
    unfold extractProducts at h
    cases hrun : runTiles ⟨[], [], 0, 0⟩ tiles with
    | error e =>
      rw [hrun] at h
      simp at h
    | ok st =>
      rw [hrun] at h
      simp only [] at h
      injection h with h
      subst h
      have hinv := runTiles_inv tiles ⟨[], [], 0, 0⟩ st hrun (by simp) (by simp) (by simp)
        (by simp)
      exact ⟨by simpa using hinv.2.2.2.2, by simpa using hinv.1⟩
  · with_unfolding_all rfl

/-- C8 witness: the count equations evaluated on the three-tile scenario. -/
theorem C8_extraction_counts_witness :
    demoExtractionABC.parsedCount = ([demoTileA, demoTileB, demoTileC].filter tileParsed).length ∧
    demoExtractionABC.keptCount = demoExtractionABC.products.length :=
  C8_extraction_counts.1 [demoTileA, demoTileB, demoTileC] demoExtractionABC
    (by with_unfolding_all rfl)

/-- C4 counterexample: a captured entry whose name alias resolves to a
truthy empty array is emitted through the discount filter with an empty
name, so not every emitted Product has a non-empty name. -/
theorem C4_invariant_counterexample :
    extractProductsFromCaptured [demoBadNameCapture] "https://www.rona.ca" =
      .ok ⟨[⟨"", "https://www.rona.ca/x", "", "", some 100, some 50, some 50⟩],
           some ⟨"u", "products", [demoBadNameItem]⟩⟩ := by
  with_unfolding_all rfl

/-- C4 amended: every emitted Product has a non-empty absolute url and a
non-null discount of at least 50, urls are pairwise distinct with the first
occurrence winning, and the boundary is inclusive (50 kept, 49 dropped);
every DOM-batch Product additionally has a non-empty name, while a
JSON-batch Product name is the string conversion of a truthy alias value —
non-empty whenever that value is a string. -/
theorem C4_emitted_invariant :
    (∀ (tiles : List RawTile) (res : ExtractionResult), extractProducts tiles = .ok res →
      ∀ p ∈ res.products, p.name ≠ "" ∧ p.url ≠ "" ∧ isAbsoluteUrl p.url = true ∧
        ∃ d, p.discountPct = some d ∧ 50 ≤ d) ∧
    (∀ (tiles : List RawTile) (res : ExtractionResult), extractProducts tiles = .ok res →
      (res.products.map Product.url).Nodup) ∧
    (∀ (items : List JsVal) (ps : List Product),
      normalizeCapturedProducts items "https://www.rona.ca" = .ok ps →
      ((ps.filter keepFilter).map Product.url).Nodup ∧
      ∀ p ∈ ps.filter keepFilter, p.url ≠ "" ∧ isAbsoluteUrl p.url = true ∧
        (∃ d, p.discountPct = some d ∧ 50 ≤ d) ∧
        ∃ v, jsTruthy v = true ∧ p.name = jsToString v) ∧
    (∀ s : String, s ≠ "" → jsToString (.str s) ≠ "") ∧
    ((extractProducts [demoTileFifty, demoTileFortyNine]).toOption.map
      (fun r => r.products.map (fun p => (p.name, p.discountPct))) =
      some [("Fifty", some 50)]) ∧
    ((extractProducts [demoTileDupFirst, demoTileDupSecond]).toOption.map
      (fun r => r.products.map Product.name) = some ["First"]) := by
  refine ⟨?_, ?_, ?_, ?_, by with_unfolding_all rfl, by with_unfolding_all rfl⟩
  · intro tiles res h p hp
    unfold extractProducts at h
    cases hrun : runTiles ⟨[], [], 0, 0⟩ tiles with
    | error e =>
      rw [hrun] at h
      simp at h
    | ok st =>
      rw [hrun] at h
      simp only [] at h
      injection h with h
      subst h
      have hinv := runTiles_inv tiles ⟨[], [], 0, 0⟩ st hrun (by simp) (by simp) (by simp)
        (by simp)
      simp only [List.mem_filter] at hp
      obtain ⟨hmem, hkeep⟩ := hp
      obtain ⟨hname, hurl, habs⟩ := hinv.2.2.2.1 p hmem
      exact ⟨hname, hurl, habs, (keepFilter_iff p).mp hkeep⟩
  · intro tiles res h
    unfold extractProducts at h
    cases hrun : runTiles ⟨[], [], 0, 0⟩ tiles with
    | error e =>
      rw [hrun] at h
      simp at h
    | ok st =>
      rw [hrun] at h
      simp only [] at h
      injection h with h
      subst h
      have hinv := runTiles_inv tiles ⟨[], [], 0, 0⟩ st hrun (by simp) (by simp) (by simp)
        (by simp)
      exact List.Nodup.sublist ((List.filter_sublist _).map _) hinv.2.2.1
  · intro items ps h
    unfold normalizeCapturedProducts at h
    cases hrun : runItems "https://www.rona.ca" ⟨[], []⟩ items with
    | error e =>
      rw [hrun] at h
      simp at h
    | ok st =>
      rw [hrun] at h
      simp only [] at h
      injection h with h
      subst h
      have hinv := runItems_inv "https://www.rona.ca" items ⟨[], []⟩ st hrun (by simp) (by simp)
        (by simp)
      constructor
      · exact List.Nodup.sublist ((List.filter_sublist _).map _) hinv.2.1
      · intro p hp
        simp only [List.mem_filter] at hp
        obtain ⟨hmem, hkeep⟩ := hp
        obtain ⟨hurl, ⟨s, hjs⟩, hv⟩ := hinv.2.2 p hmem
        exact ⟨hurl, jsNewURL_absolute _ _ hjs, (keepFilter_iff p).mp hkeep, hv⟩
  · intro s hs
    have h : jsToString (.str s) = s := rfl
    rw [h]
    exact hs

/-- C4 witness: the DOM invariant instantiated on a concrete one-tile
batch. -/
theorem C4_emitted_invariant_witness :
    demoProductA.name ≠ "" ∧ demoProductA.url ≠ "" ∧ isAbsoluteUrl demoProductA.url = true ∧
      ∃ d, demoProductA.discountPct = some d ∧ 50 ≤ d :=
  C4_emitted_invariant.1 [demoTileA] ⟨[demoProductA], 1, 1⟩ (by with_unfolding_all rfl)
    demoProductA (by simp)

/-- C7 counterexample: an entry whose url alias is the malformed string of a
scheme with an empty host makes field mapping raise, aborting the batch
instead of yielding a null field. -/
theorem C7_field_mapping_counterexample :
    normalizeCapturedProducts [demoBadUrlItem] "https://www.rona.ca" = .error () := by
  with_unfolding_all rfl

/-- C7 amended: field mapping absorbs missing fields, unresolvable aliases
and non-numeric prices as null or empty and only entries with a truthy name
and a successfully resolved url produce candidates; however an entry whose
url alias resolves to a truthy string the URL constructor rejects raises and
aborts the batch — mapping is total exactly on batches whose url aliases are
absent, falsy, or accepted by the constructor. -/
theorem C7_field_mapping :
    (∀ (base : String) (items : List JsVal) (ps : List Product),
      normalizeCapturedProducts items base = .ok ps →
      ∀ p ∈ ps, p.url ≠ "" ∧ ∃ v, jsTruthy v = true ∧ p.name = jsToString v) ∧
    (∀ (base : String) (items : List JsVal),
      (∀ item ∈ items, urlAliasSafe base item = true) →
      ∃ ps, normalizeCapturedProducts items base = .ok ps) ∧
    (extractNumber (some (.str "junk")) = none ∧ extractNumber (some (.bool true)) = none ∧
      extractNumber none = none ∧ extractNumber (some (.str "19.99")) = some (1999 / 100)) ∧
    (normalizeCapturedProducts [demoNoUrlItem] "https://www.rona.ca" = .ok []) := by
  refine ⟨?_, ?_, ⟨rfl, rfl, rfl, by with_unfolding_all rfl⟩, by with_unfolding_all rfl⟩
  · intro base items ps h p hp
    unfold normalizeCapturedProducts at h
    cases hrun : runItems base ⟨[], []⟩ items with
    | error e =>
      rw [hrun] at h
      simp at h
    | ok st =>
      rw [hrun] at h
      simp only [] at h
      injection h with h
      subst h
      have hinv := runItems_inv base items ⟨[], []⟩ st hrun (by simp) (by simp) (by simp)
      obtain ⟨hurl, _, hv⟩ := hinv.2.2 p hp
      exact ⟨hurl, hv⟩
  · intro base items hsafe
    suffices hruns : ∀ st : NState, ∃ st2, runItems base st items = .ok st2 by
      obtain ⟨st2, h⟩ := hruns ⟨[], []⟩
      refine ⟨st2.out, ?_⟩
      unfold normalizeCapturedProducts
      rw [h]
    induction items with
    | nil => exact fun st => ⟨st, rfl⟩
    | cons item rest ih =>
      intro st
      have hitem : urlAliasSafe base item = true := hsafe item (List.mem_cons_self _ _)
      have hstep : ∃ st1, normalizeStep base st item = .ok st1 := by
        by_cases hobj : isObjLike item = false
        · refine ⟨st, ?_⟩
          unfold normalizeStep
          rw [if_pos hobj]
        · cases hre : resolveCapturedUrl base (pickFirstValue item urlKeys) with
          | error e =>
            exfalso
            cases e
            obtain ⟨v, hv, ht, hj⟩ := resolveCapturedUrl_error hre
            unfold urlAliasSafe at hitem
            rw [hv] at hitem
            simp [ht, hj] at hitem
          | ok u =>
            unfold normalizeStep
            rw [if_neg hobj]
            simp only []
            rw [hre]
            simp only []
            split_ifs <;> exact ⟨_, rfl⟩
      obtain ⟨st1, h1⟩ := hstep
      obtain ⟨st2, h2⟩ := ih (fun i hi => hsafe i (List.mem_cons_of_mem _ hi)) st1
      refine ⟨st2, ?_⟩
      simp only [runItems]
      rw [h1]
      simp only []
      exact h2

/-- C7 witness: totality of the mapping on a batch whose only entry has no
url alias and an unparseable price. -/
theorem C7_field_mapping_witness :
    ∃ ps, normalizeCapturedProducts [demoNoUrlItem] "https://www.rona.ca" = .ok ps :=
  C7_field_mapping.2.1 "https://www.rona.ca" [demoNoUrlItem]
    (by
      intro item him
      rw [List.mem_singleton] at him
      subst him
      with_unfolding_all rfl)

/-- C3: network reconciliation influences the result exactly when the DOM
pass saw zero raw tiles — with tiles present the result is the DOM
extraction whatever was captured (so a tiles-present-but-filtered-out page
never consults the captures); with zero tiles the captured products are used
when non-empty, the DOM path (vacuous on zero tiles) otherwise; and when
both paths yield nothing the result is an empty list, not an error. -/
theorem C3_source_arbitration :
    (∀ (tiles : List RawTile) (captured : List CapturedEntry), tiles ≠ [] →
      scrapeStoreCore tiles captured =
        (match extractProducts tiles with
         | .error e => .error e
         | .ok r => .ok r.products)) ∧
    (∀ (captured : List CapturedEntry) (ext : CapturedExtraction),
      extractProductsFromCaptured captured "https://www.rona.ca" = .ok ext →
      ext.products ≠ [] → scrapeStoreCore [] captured = .ok ext.products) ∧
    (∀ (captured : List CapturedEntry) (ext : CapturedExtraction),
      extractProductsFromCaptured captured "https://www.rona.ca" = .ok ext →
      ext.products = [] → scrapeStoreCore [] captured = .ok []) ∧
    scrapeStoreCore [] [] = .ok [] := by
  refine ⟨?_, ?_, ?_, by with_unfolding_all rfl⟩
  · intro tiles captured hne
    unfold scrapeStoreCore
    rw [if_neg (fun hc => hne (List.length_eq_zero.mp hc.1))]
    simp only [List.length_nil]
    rw [if_pos trivial]
  · intro captured ext hext hne
    cases captured with
    | nil =>
      exfalso
      have h0 : extractProductsFromCaptured ([] : List CapturedEntry) "https://www.rona.ca" =
          .ok ⟨[], none⟩ := rfl
      rw [h0] at hext
      injection hext with hext
      rw [← hext] at hne
      exact hne rfl
    | cons e rest =>
      unfold scrapeStoreCore
      rw [if_pos ⟨rfl, by simp⟩, hext]
      simp only []
      rw [if_neg (fun hl => hne (List.length_eq_zero.mp hl))]
  · intro captured ext hext hp
    cases captured with
    | nil => with_unfolding_all rfl
    | cons e rest =>
      unfold scrapeStoreCore
      rw [if_pos ⟨rfl, by simp⟩, hext]
      simp only []
      rw [hp]
      simp only [List.length_nil]
      rw [if_pos trivial]
      with_unfolding_all rfl

/-- C3 witness: arbitration evaluated on a concrete tiles-present batch and
on a concrete zero-tile batch with a productive capture. -/
theorem C3_source_arbitration_witness :
    scrapeStoreCore [demoTileA] [] =
      (match extractProducts [demoTileA] with
       | .error e => .error e
       | .ok r => .ok r.products) ∧
    scrapeStoreCore [] [demoCapGood] = .ok [demoProductN] := by
  constructor
  · exact C3_source_arbitration.1 [demoTileA] [] (by simp)
  · exact C3_source_arbitration.2.1 [demoCapGood]
      ⟨[demoProductN], some ⟨"u", "products", [demoGoodItem]⟩⟩ (by with_unfolding_all rfl)
      (by simp)

theorem updateBest_isSome (best : Option BestMatch) (cand : BestMatch) :
    (updateBest best cand).isSome = true := by
  cases best with
  | none => rfl
  | some b =>
    show (if b.items.length < cand.items.length then
      (some cand : Option BestMatch) else some b).isSome = true
    split_ifs <;> rfl

theorem bestLen_updateBest (best : Option BestMatch) (cand : BestMatch) :
    cand.items.length ≤ bestLen (updateBest best cand) ∧
    bestLen best ≤ bestLen (updateBest best cand) := by
  cases best with
  | none => simp [updateBest, bestLen]
  | some b =>
    show cand.items.length ≤ bestLen (if b.items.length < cand.items.length then
        (some cand : Option BestMatch) else some b) ∧
      bestLen (some b) ≤ bestLen (if b.items.length < cand.items.length then
        (some cand : Option BestMatch) else some b)
    split_ifs with hlt <;>
      exact ⟨by simp only [bestLen]; omega, by simp only [bestLen]; omega⟩

theorem scanKeys_mono (entry : CapturedEntry) :
    ∀ (keys : List String) (best : Option BestMatch),
      bestLen best ≤ bestLen (scanKeys entry best keys) ∧
      (best.isSome = true → (scanKeys entry best keys).isSome = true) := by
  intro keys
  induction keys with
  | nil => exact fun best => ⟨le_refl _, fun h => h⟩
  | cons key rest ih =>
    intro best
    simp only [scanKeys]
    cases hg : getPathPart entry.data key with
    | none => exact ih best
    | some v =>
      cases v with
      | arr xs =>
        exact ⟨le_trans (bestLen_updateBest best _).2 (ih _).1,
          fun _ => (ih _).2 (updateBest_isSome _ _)⟩
      | null => exact ih best
      | bool b => exact ih best
      | num q => exact ih best
      | str s => exact ih best
      | obj fs => exact ih best

theorem scanKeys_hit (entry : CapturedEntry) :
    ∀ (keys : List String) (best : Option BestMatch) (key : String) (xs : List JsVal),
      key ∈ keys → getPathPart entry.data key = some (.arr xs) →
      xs.length ≤ bestLen (scanKeys entry best keys) ∧
      (scanKeys entry best keys).isSome = true := by
  intro keys
  induction keys with
  | nil =>
    intro best key xs hmem
    exact absurd hmem (List.not_mem_nil _)
  | cons k rest ih =>
    intro best key xs hmem hg
    rcases List.mem_cons.mp hmem with rfl | hmem
    · simp only [scanKeys]
      rw [hg]
      exact ⟨le_trans (bestLen_updateBest best ⟨entry.url, key, xs⟩).1
          (scanKeys_mono entry rest (updateBest best ⟨entry.url, key, xs⟩)).1,
        (scanKeys_mono entry rest (updateBest best ⟨entry.url, key, xs⟩)).2
          (updateBest_isSome best ⟨entry.url, key, xs⟩)⟩
    · simp only [scanKeys]
      exact ih _ key xs hmem hg

theorem scanEntry_mono (best : Option BestMatch) (entry : CapturedEntry) :
    bestLen best ≤ bestLen (scanEntry best entry) ∧
    (best.isSome = true → (scanEntry best entry).isSome = true) := by
  unfold scanEntry
  split_ifs with ht
  · exact ⟨le_refl _, fun h => h⟩
  · cases hsk : scanKeys entry best priorityKeys with
    | some b =>
      constructor
      · have hm := (scanKeys_mono entry priorityKeys best).1
        rw [hsk] at hm
        exact hm
      · intro _
        rfl
    | none =>
      have hb : best = none := by
        cases best with
        | none => rfl
        | some b =>
          have hm := (scanKeys_mono entry priorityKeys (some b)).2 rfl
          rw [hsk] at hm
          simp at hm
      subst hb
      constructor
      · exact Nat.zero_le _
      · intro hs
        simp at hs

theorem scanEntry_hit (best : Option BestMatch) (entry : CapturedEntry) (key : String)
    (xs : List JsVal) (ht : jsTruthy entry.data = true) (hmem : key ∈ priorityKeys)
    (hg : getPathPart entry.data key = some (.arr xs)) :
    xs.length ≤ bestLen (scanEntry best entry) ∧ (scanEntry best entry).isSome = true := by
  obtain ⟨hlen, hsome⟩ := scanKeys_hit entry priorityKeys best key xs hmem hg
  unfold scanEntry
  rw [ht]
  rw [if_neg (by simp)]
  cases hsk : scanKeys entry best priorityKeys with
  | none =>
    rw [hsk] at hsome
    simp at hsome
  | some b =>
    rw [hsk] at hlen
    exact ⟨hlen, rfl⟩

theorem bestCaptureMatch_mono :
    ∀ (l : List CapturedEntry) (best : Option BestMatch),
      bestLen best ≤ bestLen (bestCaptureMatch best l) ∧
      (best.isSome = true → (bestCaptureMatch best l).isSome = true) := by
  intro l
  induction l with
  | nil => exact fun best => ⟨le_refl _, fun h => h⟩
  | cons e rest ih =>
    intro best
    simp only [bestCaptureMatch]
    exact ⟨le_trans (scanEntry_mono best e).1 (ih _).1,
      fun hs => (ih _).2 ((scanEntry_mono best e).2 hs)⟩

theorem bestCaptureMatch_hit :
    ∀ (l : List CapturedEntry) (best : Option BestMatch) (entry : CapturedEntry)
      (key : String) (xs : List JsVal),
      entry ∈ l → jsTruthy entry.data = true → key ∈ priorityKeys →
      getPathPart entry.data key = some (.arr xs) →
      xs.length ≤ bestLen (bestCaptureMatch best l) ∧
      (bestCaptureMatch best l).isSome = true := by
  intro l
  induction l with
  | nil =>
    intro best entry key xs hmem
    exact absurd hmem (List.not_mem_nil _)
  | cons e rest ih =>
    intro best entry key xs hmem ht hk hg
    rcases List.mem_cons.mp hmem with rfl | hmem
    · simp only [bestCaptureMatch]
      obtain ⟨hlen, hsome⟩ := scanEntry_hit best entry key xs ht hk hg
      exact ⟨le_trans hlen (bestCaptureMatch_mono rest _).1,
        (bestCaptureMatch_mono rest _).2 hsome⟩
    · simp only [bestCaptureMatch]
      exact ih _ entry key xs hmem ht hk hg

theorem extractProductsFromCaptured_matched (captured : List CapturedEntry) (baseUrl : String)
    (ext : CapturedExtraction) (h : extractProductsFromCaptured captured baseUrl = .ok ext) :
    ext.matched = bestCaptureMatch none captured := by
  unfold extractProductsFromCaptured at h
  cases hb : bestCaptureMatch none captured with
  | none =>
    rw [hb] at h
    simp only [] at h
    injection h with h
    subst h
    rfl
  | some best =>
    rw [hb] at h
    simp only [] at h
    cases hn : normalizeCapturedProducts best.items baseUrl with
    | error e =>
      rw [hn] at h
      simp at h
    | ok normalized =>
      rw [hn] at h
      simp only [] at h
      injection h with h
      subst h
      rfl

/-- C2 counterexample: with a five-entry all-object array under an
unrecognized nested key scanned before a response carrying a three-entry
array under the well-known `products` key, the reconciler selects the
generic array — so the generic walk is not reserved for capture sets where
no well-known key matched. -/
theorem C2_best_match_counterexample :
    ((bestCaptureMatch none [demoEntryGenericFive, demoEntryProductsThree]).map
      (fun b => (b.url, b.path, b.items.length)) = some ("a", "weird.stuff", 5)) ∧
    ((match getPathPart demoEntryProductsThree.data "products" with
      | some (.arr xs) => xs.length
      | _ => 0) = 3) ∧
    "products" ∈ priorityKeys ∧ ¬("weird.stuff" ∈ priorityKeys) := by
  refine ⟨by with_unfolding_all rfl, by with_unfolding_all rfl, ?_, ?_⟩
  · with_unfolding_all decide
  · with_unfolding_all decide

/-- C2 amended: selection ranks candidates purely by element count, the
well-known keys being scanned for every response while the generic walk runs
only for responses scanned before any best match exists; a well-known-key
array is always offered to the ranking, so some match is selected and its
length dominates every well-known-key array in the capture set; the §8
scenario (five-entry `products` against a three-entry generic array) selects
the `products` array in either order because it is longer; and the match of
`extractProductsFromCaptured` is exactly this selection. -/
theorem C2_best_match_amended :
    ((bestCaptureMatch none [demoEntryProductsFive, demoEntryGenericThree]).map
      (fun b => (b.url, b.path, b.items.length)) = some ("u1", "products", 5)) ∧
    ((bestCaptureMatch none [demoEntryGenericThree, demoEntryProductsFive]).map
      (fun b => (b.url, b.path, b.items.length)) = some ("u1", "products", 5)) ∧
    (∀ (captured : List CapturedEntry) (entry : CapturedEntry) (key : String)
      (xs : List JsVal),
      entry ∈ captured → jsTruthy entry.data = true → key ∈ priorityKeys →
      getPathPart entry.data key = some (.arr xs) →
      ∃ b, bestCaptureMatch none captured = some b ∧ xs.length ≤ b.items.length) ∧
    (∀ (captured : List CapturedEntry) (baseUrl : String) (ext : CapturedExtraction),
      extractProductsFromCaptured captured baseUrl = .ok ext →
      ext.matched = bestCaptureMatch none captured) := by
  refine ⟨by with_unfolding_all rfl, by with_unfolding_all rfl, ?_,
    extractProductsFromCaptured_matched⟩
  intro captured entry key xs hmem ht hk hg
  obtain ⟨hlen, hsome⟩ := bestCaptureMatch_hit captured none entry key xs hmem ht hk hg
  cases hb : bestCaptureMatch none captured with
  | none =>
    rw [hb] at hsome
    simp at hsome
  | some b =>
    refine ⟨b, rfl, ?_⟩
    rw [hb] at hlen
    simpa [bestLen] using hlen

/-- C2 witness: the domination property instantiated on a singleton capture
set with a three-entry `products` array. -/
theorem C2_best_match_witness :
    ∃ b, bestCaptureMatch none [demoEntryProductsThree] = some b ∧ 3 ≤ b.items.length :=
  C2_best_match_amended.2.2.1 [demoEntryProductsThree] demoEntryProductsThree "products"
    [.obj [], .obj [], .obj []] (List.mem_singleton.mpr rfl) (by with_unfolding_all rfl)
    (by with_unfolding_all decide) (by with_unfolding_all rfl)

theorem visitDepth_deepNest (n : ℕ) : visitDepth (deepNest n) = n + 1 := by
  induction n with
  | zero => rfl
  | succ n ih =>
    show visitDepth (.obj [("k", deepNest n)]) = n + 2
    simp only [visitDepth, visitDepthFields, ih, Nat.max_zero]
    omega

theorem visitDepth_deepArr (n : ℕ) : visitDepth (deepArr n) = n + 1 := by
  induction n with
  | zero => rfl
  | succ n ih =>
    show visitDepth (.obj [("k", deepArr n)]) = n + 2
    simp only [visitDepth, visitDepthFields, ih, Nat.max_zero]
    omega

theorem visitCollect_deepArr :
    ∀ (n : ℕ) (path : String), (visitCollect (deepArr n) path).length = 1 := by
  intro n
  induction n with
  | zero => intro path; rfl
  | succ n ih =>
    intro path
    show (visitCollect (.obj [("k", deepArr n)]) path).length = 1
    simp only [visitCollect, visitFields, List.append_nil]
    exact ih _

/-- C9 counterexample: no constant bounds the recursion depth of the
candidate walk over all inputs — the walk has no depth cap. -/
theorem C9_depth_cap_counterexample : ¬ ∃ D : ℕ, ∀ v : JsVal, visitDepth v ≤ D := by
  rintro ⟨D, hD⟩
  have h := hD (deepNest (D + 1))
  rw [visitDepth_deepNest] at h
  omega

/-- C9 amended: the candidate walk is plain structural recursion with no
depth cap: its recursion depth is one more than the nesting depth of the
input (so it is finite on every parsed-JSON value, which is a finite tree,
but unbounded across inputs), and arrays buried at arbitrary depth are still
collected, which a depth cap would prevent. -/
theorem C9_walk_depth :
    (∀ n : ℕ, visitDepth (deepNest n) = n + 1) ∧
    (∀ n : ℕ, visitDepth (deepArr n) = n + 1) ∧
    (∀ n : ℕ, (collectCandidateArrays (deepArr n)).length = 1) :=
  ⟨visitDepth_deepNest, visitDepth_deepArr, fun n => visitCollect_deepArr n ""⟩

/-- C9 witness: the depth equations evaluated at concrete depths. -/
theorem C9_walk_depth_witness :
    visitDepth (deepNest 3) = 4 ∧ (collectCandidateArrays (deepArr 3)).length = 1 :=
  ⟨C9_walk_depth.1 3, C9_walk_depth.2.2 3⟩

end Rona
